import Mathlib

/-!
Verification development for the microcode/expiring repository: a
time-bucketed self-expiring set, present in two near-identical revisions
(ExpiringSetImpl in ExpiringSet.ts and TimedSet in TimedSet.ts).

The embedding models JavaScript Map and Set as insertion-ordered
association lists and element lists: Map.set updates an existing key in
place and appends a new key at the end, Map.delete removes the key,
iteration follows insertion order.  Times are integers (milliseconds);
Math.floor of a real division of integers with a positive divisor is
Int.fdiv.  The single pending timer handle (gcTimer) is modelled as a
Bool (a handle is pending or not).  Listeners are modelled by
registration identifiers (Nat); whether a given listener throws on a
given batch is supplied as a function to the sweep, and the try/catch
in the source swallows the failure and continues the loop, which the
model records in the produced call events.
-/

namespace Expiring

/-- Lookup in an insertion-ordered association list (JS Map.get): first
matching key wins. -/
def alookup {κ α : Type} [DecidableEq κ] : List (κ × α) → κ → Option α
  | [], _ => none
  | p :: rest, k => if k = p.1 then some p.2 else alookup rest k

/-- JS Map.set: replace the value of an existing key in place, otherwise
append the new pair at the end. -/
def aset {κ α : Type} [DecidableEq κ] : List (κ × α) → κ → α → List (κ × α)
  | [], k, a => [(k, a)]
  | p :: rest, k, a => if k = p.1 then (p.1, a) :: rest else p :: aset rest k a

/-- JS Map.delete: remove the entry of the key, if present. -/
def aerase {κ α : Type} [DecidableEq κ] : List (κ × α) → κ → List (κ × α)
  | [], _ => []
  | p :: rest, k => if k = p.1 then rest else p :: aerase rest k

/-- The keys of an association list, in order. -/
def akeys {κ α : Type} (l : List (κ × α)) : List κ := l.map Prod.fst

/-- The association list is a genuine map: no duplicate keys. -/
def NodupKeys {κ α : Type} (l : List (κ × α)) : Prop := (akeys l).Nodup

/-- JS Set.add: append the element if it is not already present. -/
def sadd {T : Type} [DecidableEq T] (l : List T) (v : T) : List T :=
  if v ∈ l then l else l ++ [v]

/-- JS Set.delete: remove the element, if present. -/
def serase {T : Type} [DecidableEq T] : List T → T → List T
  | [], _ => []
  | x :: rest, v => if v = x then rest else x :: serase rest v

/-- Resolved configuration of the engine (IExpiringSetOptions /
TimedSetOptions): gc is the bucket width and sweep period, ttl the
time-to-live, both in milliseconds. -/
structure Options where
  gc : Int
  ttl : Int
deriving DecidableEq, Repr

/-- Caller-supplied options object: either field may be absent
(Partial of the options type in the source). -/
structure RawOptions where
  gc : Option Int
  ttl : Option Int
deriving DecidableEq, Repr

/-- Object.assign of the supplied options over the defaults
gc = 1000, ttl = 5000, as done by both constructors.  No validation of
any kind is performed on the supplied values. -/
def resolveOptions (ro : RawOptions) : Options :=
  { gc := ro.gc.getD 1000, ttl := ro.ttl.getD 5000 }

/-- The mutable state owned by one engine instance: the pending-timer
flag, the entry map (value to bucket identifier), the bucket map
(bucket identifier to set of values), and the registered listeners
(by registration identifier, in registration order). -/
structure State (T : Type) where
  gcTimer : Bool
  entries : List (T × Int)
  buckets : List (Int × List T)
  listeners : List Nat
deriving DecidableEq, Repr

/-- The freshly initialised field values of a new instance. -/
def initState (T : Type) : State T :=
  { gcTimer := false, entries := [], buckets := [], listeners := [] }

/-- One listener invocation event produced by a sweep: which listener,
with which batch, and whether the listener threw (the source swallows
the exception). -/
structure Call (T : Type) where
  listener : Nat
  batch : List T
  threw : Bool
deriving DecidableEq, Repr

/-- Everything a sweep produces: the state afterwards, the reclaimed
batch, and the listener invocation events in the order they happened. -/
structure SweepResult (T : Type) where
  state : State T
  values : List T
  calls : List (Call T)
deriving DecidableEq, Repr

/-- The bucket identifier of a point in time: Math.floor(now / gc). -/
def bucketSlot (now gc : Int) : Int := Int.fdiv now gc

/-- The expiry threshold used by has, forEach and the sweep:
Math.floor((now - ttl) / gc). -/
def expiryThreshold (o : Options) (now : Int) : Int :=
  Int.fdiv (now - o.ttl) o.gc

variable {T : Type} [DecidableEq T]

namespace ExpiringSetImpl

/-- createBucket(id): return the existing bucket for the identifier, or
insert a fresh empty one and return it.  Models the returned
reference together with the possibly-extended map. -/
def createBucket (bs : List (Int × List T)) (id : Int) :
    List (Int × List T) × List T :=
  match alookup bs id with
  | some b => (bs, b)
  | none => (bs ++ [(id, [])], [])

/-- The bucket-map effect of "bucket = buckets.get(id); bucket.delete(v);
if (!bucket.size) buckets.delete(id)".  The source would throw if the
identifier had no bucket; on well-formed states it always does, and the
model leaves the map unchanged in that unreachable case. -/
def bucketRemove (bs : List (Int × List T)) (id : Int) (v : T) :
    List (Int × List T) :=
  match alookup bs id with
  | none => bs
  | some b =>
    let b' := serase b v
    if b' = [] then aerase bs id else aset bs id b'

/-- The bucket-map effect of "newBucket = createBucket(id);
newBucket.add(v)": the mutated set sits in the map at its key. -/
def bucketStore (bs : List (Int × List T)) (id : Int) (v : T) :
    List (Int × List T) :=
  let r := createBucket bs id
  aset r.1 id (sadd r.2 v)

/-- scheduleGarbageCollection(): cancel the pending timer when the entry
map is empty; otherwise arm a timer only when none is pending. -/
def scheduleGarbageCollection (s : State T) : State T :=
  if s.entries.isEmpty then
    if s.gcTimer then { s with gcTimer := false } else s
  else if s.gcTimer then s
  else { s with gcTimer := true }

/-- add(v) executed when the wall clock reads now. -/
def add (o : Options) (now : Int) (v : T) (s : State T) : State T :=
  let id := bucketSlot now o.gc
  let buckets0 :=
    match alookup s.entries v with
    | some currentId =>
      if currentId ≠ id then bucketRemove s.buckets currentId v else s.buckets
    | none => s.buckets
  scheduleGarbageCollection
    { s with entries := aset s.entries v id,
             buckets := bucketStore buckets0 id v }

/-- clear(). -/
def clear (s : State T) : State T :=
  scheduleGarbageCollection { s with entries := [], buckets := [] }

/-- delete(v): returns the new state and the boolean result. -/
def delete (o : Options) (now : Int) (v : T) (s : State T) :
    State T × Bool :=
  match alookup s.entries v with
  | none => (s, false)
  | some id =>
    (scheduleGarbageCollection
      { s with buckets := bucketRemove s.buckets id v,
               entries := aerase s.entries v }, true)

/-- has(v) at time now. -/
def has (o : Options) (now : Int) (v : T) (s : State T) : Bool :=
  match alookup s.entries v with
  | none => false
  | some id => decide (id ≥ expiryThreshold o now)

/-- size. -/
def size (s : State T) : Nat := s.entries.length

/-- listen(f): push the listener (identified by a registration id). -/
def listen (l : Nat) (s : State T) : State T :=
  { s with listeners := s.listeners ++ [l] }

/-- The listener fan-out loop of the sweep: for each listener in
registration order, invoke it inside try/catch; a throwing listener is
recorded but the loop continues with the remaining listeners. -/
def notifyAll (throws : Nat → List T → Bool) :
    List Nat → List T → List (Call T)
  | [], _ => []
  | l :: rest, vs => ⟨l, vs, throws l vs⟩ :: notifyAll throws rest vs

/-- performGarbageCollection() fired when the wall clock reads now.
Clears the pending-timer flag, collects every bucket at or below the
expiry threshold (in map iteration order) into the batch and deletes
those buckets, deletes the batch values from the entry map, re-evaluates
timer arming, and, when the batch is non-empty, invokes the listeners. -/
def performGarbageCollection (o : Options) (now : Int)
    (throws : Nat → List T → Bool) (s : State T) : SweepResult T :=
  let s0 : State T := { s with gcTimer := false }
  let expired := expiryThreshold o now
  let values := (s0.buckets.filter fun p => decide (p.1 ≤ expired)).flatMap Prod.snd
  let buckets1 := s0.buckets.filter fun p => decide (expired < p.1)
  let entries1 := values.foldl (fun m w => aerase m w) s0.entries
  let s1 := scheduleGarbageCollection
    { s0 with entries := entries1, buckets := buckets1 }
  let calls := if values.isEmpty then [] else notifyAll throws s.listeners values
  ⟨s1, values, calls⟩

/-- The constructor: resolve options over the defaults, then add each
seed value (at construction time).  Construction is total: there is no
validation and no failure path. -/
def new (now : Int) (values : List T) (ro : RawOptions) :
    Options × State T :=
  let o := resolveOptions ro
  (o, values.foldl (fun s v => add o now v s) (initState T))

end ExpiringSetImpl

namespace TimedSet

/-- TimedSet.createBucket(id), identical to the other revision. -/
def createBucket (bs : List (Int × List T)) (id : Int) :
    List (Int × List T) × List T :=
  match alookup bs id with
  | some b => (bs, b)
  | none => (bs ++ [(id, [])], [])

/-- The bucket-map effect of removing a value from its bucket and
dropping the bucket if it became empty, as in TimedSet.add / delete. -/
def bucketRemove (bs : List (Int × List T)) (id : Int) (v : T) :
    List (Int × List T) :=
  match alookup bs id with
  | none => bs
  | some b =>
    let b' := serase b v
    if b' = [] then aerase bs id else aset bs id b'

/-- The bucket-map effect of createBucket followed by newBucket.add. -/
def bucketStore (bs : List (Int × List T)) (id : Int) (v : T) :
    List (Int × List T) :=
  let r := createBucket bs id
  aset r.1 id (sadd r.2 v)

/-- TimedSet.bucketId(): Math.floor(now / gc). -/
def bucketId (o : Options) (now : Int) : Int := Int.fdiv now o.gc

/-- TimedSet.gc(): the timer arming / cancelling policy. -/
def gc (s : State T) : State T :=
  if s.entries.isEmpty then
    if s.gcTimer then { s with gcTimer := false } else s
  else if s.gcTimer then s
  else { s with gcTimer := true }

/-- TimedSet.add(v) at time now. -/
def add (o : Options) (now : Int) (v : T) (s : State T) : State T :=
  let id := bucketId o now
  let buckets0 :=
    match alookup s.entries v with
    | some currentId =>
      if currentId ≠ id then bucketRemove s.buckets currentId v else s.buckets
    | none => s.buckets
  gc { s with entries := aset s.entries v id,
              buckets := bucketStore buckets0 id v }

/-- TimedSet.clear(). -/
def clear (s : State T) : State T :=
  gc { s with entries := [], buckets := [] }

/-- TimedSet.delete(v): void, no boolean result. -/
def delete (o : Options) (now : Int) (v : T) (s : State T) : State T :=
  match alookup s.entries v with
  | none => s
  | some id =>
    gc { s with buckets := bucketRemove s.buckets id v,
                entries := aerase s.entries v }

/-- TimedSet.has(v) at time now. -/
def has (o : Options) (now : Int) (v : T) (s : State T) : Bool :=
  match alookup s.entries v with
  | none => false
  | some id => decide (id ≥ Int.fdiv (now - o.ttl) o.gc)

/-- TimedSet.size. -/
def size (s : State T) : Nat := s.entries.length

/-- TimedSet.listen(f). -/
def listen (l : Nat) (s : State T) : State T :=
  { s with listeners := s.listeners ++ [l] }

/-- The listener fan-out loop of TimedSet.__gc, with the same
try/catch-and-continue behaviour. -/
def notifyAll (throws : Nat → List T → Bool) :
    List Nat → List T → List (Call T)
  | [], _ => []
  | l :: rest, vs => ⟨l, vs, throws l vs⟩ :: notifyAll throws rest vs

/-- TimedSet.__gc() fired at time now. -/
def timedSweep (o : Options) (now : Int)
    (throws : Nat → List T → Bool) (s : State T) : SweepResult T :=
  let s0 : State T := { s with gcTimer := false }
  let expired := Int.fdiv (now - o.ttl) o.gc
  let values := (s0.buckets.filter fun p => decide (p.1 ≤ expired)).flatMap Prod.snd
  let buckets1 := s0.buckets.filter fun p => decide (expired < p.1)
  let entries1 := values.foldl (fun m w => aerase m w) s0.entries
  let s1 := gc { s0 with entries := entries1, buckets := buckets1 }
  let calls := if values.isEmpty then [] else notifyAll throws s.listeners values
  ⟨s1, values, calls⟩

/-- The TimedSet constructor: resolve options over the same defaults;
no seed values are accepted. -/
def new (T : Type) (ro : RawOptions) : Options × State T :=
  (resolveOptions ro, initState T)

end TimedSet

/-- The value sits in the bucket stored under the identifier (an absent
bucket contains nothing). -/
def bucketContains (bs : List (Int × List T)) (id : Int) (v : T) : Prop :=
  v ∈ (alookup bs id).getD []

/-- Map-consistency invariant of an engine state: both structures are
genuine maps (no duplicate keys), every entry-map record points at a
bucket that contains its value, and every stored bucket is a non-empty
duplicate-free set all of whose values carry exactly its identifier in
the entry map. -/
def WF (s : State T) : Prop :=
  NodupKeys s.entries ∧ NodupKeys s.buckets ∧
  (∀ p ∈ s.entries, bucketContains s.buckets p.2 p.1) ∧
  (∀ q ∈ s.buckets, q.2 ≠ [] ∧ q.2.Nodup ∧ ∀ v ∈ q.2, alookup s.entries v = some q.1)

instance decidableWF (s : State T) : Decidable (WF s) := by
  unfold WF NodupKeys bucketContains
  exact inferInstance

/-- Logical membership as the specification words it: false without an
entry, otherwise the recorded bucket identifier is at least
floor((now - ttl) / gc).  It reads nothing but the entry map and the
clock. -/
def logicalMember (o : Options) (now : Int) (entries : List (T × Int)) (v : T) :
    Bool :=
  match alookup entries v with
  | none => false
  | some id => decide (expiryThreshold o now ≤ id)

/-- One externally triggered event of a run: a mutation or a sweep
firing, each stamped with the wall-clock time at which it executes. -/
inductive Event (T : Type) where
  | addE (now : Int) (v : T)
  | delE (now : Int) (v : T)
  | clearE
  | listenE (l : Nat)
  | sweepE (now : Int)
deriving DecidableEq, Repr

/-- One step of the ExpiringSetImpl revision. -/
def stepExp (o : Options) (throws : Nat → List T → Bool) (s : State T) :
    Event T → State T
  | .addE now v => ExpiringSetImpl.add o now v s
  | .delE now v => (ExpiringSetImpl.delete o now v s).1
  | .clearE => ExpiringSetImpl.clear s
  | .listenE l => ExpiringSetImpl.listen l s
  | .sweepE now => (ExpiringSetImpl.performGarbageCollection o now throws s).state

/-- One step of the TimedSet revision. -/
def stepTimed (o : Options) (throws : Nat → List T → Bool) (s : State T) :
    Event T → State T
  | .addE now v => TimedSet.add o now v s
  | .delE now v => TimedSet.delete o now v s
  | .clearE => TimedSet.clear s
  | .listenE l => TimedSet.listen l s
  | .sweepE now => (TimedSet.timedSweep o now throws s).state

/-- Run a whole event sequence through the ExpiringSetImpl revision. -/
def runExp (o : Options) (throws : Nat → List T → Bool) (evs : List (Event T))
    (s : State T) : State T :=
  evs.foldl (stepExp o throws) s

/-- Run a whole event sequence through the TimedSet revision. -/
def runTimed (o : Options) (throws : Nat → List T → Bool) (evs : List (Event T))
    (s : State T) : State T :=
  evs.foldl (stepTimed o throws) s

/-- A listener behaviour that never throws, used to instantiate the
sweep on concrete runs. -/
def neverThrows (T : Type) : Nat → List T → Bool := fun _ _ => false

/-- A listener behaviour that always throws, used to exercise the
failure-isolation path of the sweep on concrete runs. -/
def alwaysThrows (T : Type) : Nat → List T → Bool := fun _ _ => true

/-- A concrete reachable state: one engine with gc = 10 and ttl = 10,
value 0 added at time 10 (bucket 1). -/
def cexState : State Nat :=
  ExpiringSetImpl.add ⟨10, 10⟩ 10 0 (initState Nat)

/-- A concrete reachable state with two buckets and one listener:
value 0 added at time 10 (bucket 1), value 1 added at time 25
(bucket 2), listener 7 registered. -/
def twoBucketState : State Nat :=
  ExpiringSetImpl.listen 7
    (ExpiringSetImpl.add ⟨10, 10⟩ 25 1
      (ExpiringSetImpl.add ⟨10, 10⟩ 10 0 (initState Nat)))

section AssocLemmas

variable {κ α : Type} [DecidableEq κ]

theorem alookup_aset (l : List (κ × α)) (k : κ) (a : α) (k' : κ) :
    alookup (aset l k a) k' = if k' = k then some a else alookup l k' := by
  induction l with
  | nil => simp [aset, alookup]
  | cons p rest ih =>
    by_cases hk : k = p.1
    · subst hk
      simp only [aset, if_pos rfl, alookup]
      split <;> rfl
    · simp only [aset, if_neg hk, alookup, ih]
      by_cases hk' : k' = p.1
      · subst hk'
        simp [Ne.symm hk]
      · simp [hk']

theorem alookup_eq_none (l : List (κ × α)) (k : κ) :
    alookup l k = none ↔ k ∉ akeys l := by
  induction l with
  | nil => simp [alookup, akeys]
  | cons p rest ih =>
    simp only [alookup, akeys, List.map_cons, List.mem_cons]
    by_cases hk : k = p.1
    · simp [hk]
    · simp [hk, ih, akeys]

theorem alookup_aerase (l : List (κ × α)) (k k' : κ) (h : NodupKeys l) :
    alookup (aerase l k) k' = if k' = k then none else alookup l k' := by
  induction l with
  | nil =>
    simp only [aerase, alookup]
    split <;> rfl
  | cons p rest ih =>
    have hrest : NodupKeys rest := (List.nodup_cons.mp h).2
    by_cases hk : k = p.1
    · subst hk
      simp only [aerase, if_pos rfl]
      by_cases hk' : k' = p.1
      · subst hk'
        have hnk : p.1 ∉ akeys rest := (List.nodup_cons.mp h).1
        simp [(alookup_eq_none rest p.1).mpr hnk]
      · simp [hk', alookup]
    · simp only [aerase, if_neg hk, alookup, ih hrest]
      by_cases hk' : k' = p.1
      · subst hk'
        simp [Ne.symm hk]
      · simp [hk']

theorem alookup_eq_some_mem {l : List (κ × α)} {k : κ} {a : α}
    (h : alookup l k = some a) : (k, a) ∈ l := by
  induction l with
  | nil => simp [alookup] at h
  | cons p rest ih =>
    simp only [alookup] at h
    by_cases hk : k = p.1
    · rw [if_pos hk] at h
      injection h with h2
      have hpa : p = (k, a) := Prod.ext_iff.mpr ⟨hk.symm, h2⟩
      rw [hpa]
      exact List.mem_cons_self _ _
    · rw [if_neg hk] at h
      exact List.mem_cons_of_mem _ (ih h)

theorem mem_alookup {l : List (κ × α)} {k : κ} {a : α} (h : NodupKeys l)
    (hm : (k, a) ∈ l) : alookup l k = some a := by
  induction l with
  | nil => simp at hm
  | cons p rest ih =>
    have hrest : NodupKeys rest := (List.nodup_cons.mp h).2
    rcases List.mem_cons.mp hm with heq | htl
    · subst heq
      simp [alookup]
    · have hk : k ≠ p.1 := by
        intro hkk
        have hmem : k ∈ List.map Prod.fst rest :=
          List.mem_map.mpr ⟨(k, a), htl, rfl⟩
        exact (List.nodup_cons.mp h).1 (hkk ▸ hmem)
      simp [alookup, hk, ih hrest htl]

theorem akeys_aset (l : List (κ × α)) (k : κ) (a : α) :
    akeys (aset l k a) = if k ∈ akeys l then akeys l else akeys l ++ [k] := by
  induction l with
  | nil => simp [aset, akeys]
  | cons p rest ih =>
    by_cases hk : k = p.1
    · subst hk
      simp [aset, akeys]
    · simp only [aset, if_neg hk, akeys, List.map_cons]
      simp only [akeys] at ih
      rw [ih]
      by_cases hmem : k ∈ List.map Prod.fst rest
      · simp [hmem, hk]
      · simp [hmem, hk]

theorem nodupKeys_aset (l : List (κ × α)) (k : κ) (a : α) (h : NodupKeys l) :
    NodupKeys (aset l k a) := by
  unfold NodupKeys
  rw [akeys_aset]
  by_cases hmem : k ∈ akeys l
  · rw [if_pos hmem]
    exact h
  · rw [if_neg hmem]
    refine List.Nodup.append h (List.nodup_singleton k) ?_
    intro x hx hx'
    rw [List.mem_singleton] at hx'
    subst hx'
    exact hmem hx

theorem aerase_sublist (l : List (κ × α)) (k : κ) :
    List.Sublist (aerase l k) l := by
  induction l with
  | nil => simp [aerase]
  | cons p rest ih =>
    by_cases hk : k = p.1
    · simpa [aerase, hk] using (List.sublist_cons_self p rest)
    · simpa [aerase, hk] using List.Sublist.cons₂ p ih

theorem nodupKeys_aerase (l : List (κ × α)) (k : κ) (h : NodupKeys l) :
    NodupKeys (aerase l k) :=
  List.Nodup.sublist (List.Sublist.map Prod.fst (aerase_sublist l k)) h

theorem nodupKeys_filter (l : List (κ × α)) (f : κ × α → Bool)
    (h : NodupKeys l) : NodupKeys (l.filter f) :=
  List.Nodup.sublist (List.Sublist.map Prod.fst (List.filter_sublist l)) h

theorem alookup_filter (l : List (κ × α)) (P : κ → Bool) (k : κ)
    (h : NodupKeys l) :
    alookup (l.filter fun p => P p.1) k = if P k then alookup l k else none := by
  induction l with
  | nil =>
    simp only [List.filter_nil, alookup]
    split <;> rfl
  | cons p rest ih =>
    have hrest : NodupKeys rest := (List.nodup_cons.mp h).2
    by_cases hk : k = p.1
    · subst hk
      by_cases hP : P p.1
      · simp [List.filter_cons, hP, alookup]
      · simp only [List.filter_cons, hP]
        simp only [Bool.false_eq_true, if_false]
        rw [ih hrest]
        simp [hP, (alookup_eq_none rest p.1).mpr (List.nodup_cons.mp h).1]
    · by_cases hP : P p.1
      · simp [List.filter_cons, hP, alookup, hk, ih hrest]
      · simp only [List.filter_cons, hP]
        simp only [Bool.false_eq_true, if_false]
        rw [ih hrest]
        simp [alookup, hk]

theorem alookup_eraseAll (vs : List κ) (l : List (κ × α)) (k : κ)
    (h : NodupKeys l) :
    alookup (vs.foldl (fun m w => aerase m w) l) k =
      if k ∈ vs then none else alookup l k := by
  induction vs generalizing l with
  | nil => simp
  | cons v rest ih =>
    have h' : NodupKeys (aerase l v) := nodupKeys_aerase l v h
    simp only [List.foldl_cons, ih (aerase l v) h', alookup_aerase l v k h,
      List.mem_cons]
    by_cases hkrest : k ∈ rest
    · simp [hkrest]
    · by_cases hkv : k = v
      · simp [hkv, hkrest]
      · simp [hkv, hkrest]

theorem nodupKeys_eraseAll (vs : List κ) (l : List (κ × α)) (h : NodupKeys l) :
    NodupKeys (vs.foldl (fun m w => aerase m w) l) := by
  induction vs generalizing l with
  | nil => simpa
  | cons v rest ih => exact ih (aerase l v) (nodupKeys_aerase l v h)

theorem aset_append_left (l₁ l₂ : List (κ × α)) (k : κ) (a : α)
    (h : k ∉ akeys l₁) : aset (l₁ ++ l₂) k a = l₁ ++ aset l₂ k a := by
  induction l₁ with
  | nil => simp
  | cons p rest ih =>
    have hk : k ≠ p.1 := by
      intro hkk
      exact h (by simp [akeys, hkk])
    have hrest : k ∉ akeys rest := by
      intro hmem
      apply h
      simp only [akeys, List.map_cons, List.mem_cons]
      exact Or.inr hmem
    simp [aset, hk, ih hrest]

end AssocLemmas

section SetLemmas

variable {T : Type} [DecidableEq T]

theorem alookup_append {κ α : Type} [DecidableEq κ] (l₁ l₂ : List (κ × α))
    (k : κ) :
    alookup (l₁ ++ l₂) k = (alookup l₁ k).or (alookup l₂ k) := by
  induction l₁ with
  | nil => simp [alookup]
  | cons p rest ih =>
    by_cases hk : k = p.1
    · simp [alookup, hk]
    · simp [alookup, hk, ih]

theorem mem_sadd (l : List T) (v x : T) : x ∈ sadd l v ↔ x ∈ l ∨ x = v := by
  unfold sadd
  by_cases hv : v ∈ l
  · rw [if_pos hv]
    constructor
    · exact Or.inl
    · rintro (hx | rfl)
      · exact hx
      · exact hv
  · rw [if_neg hv]
    simp

theorem nodup_sadd (l : List T) (v : T) (h : l.Nodup) : (sadd l v).Nodup := by
  unfold sadd
  by_cases hv : v ∈ l
  · rwa [if_pos hv]
  · rw [if_neg hv]
    refine List.Nodup.append h (List.nodup_singleton v) ?_
    intro x hx hx'
    rw [List.mem_singleton] at hx'
    subst hx'
    exact hv hx

theorem sadd_ne_nil (l : List T) (v : T) : sadd l v ≠ [] := by
  unfold sadd
  by_cases hv : v ∈ l
  · rw [if_pos hv]
    exact List.ne_nil_of_mem hv
  · rw [if_neg hv]
    simp

theorem serase_sublist (l : List T) (v : T) : List.Sublist (serase l v) l := by
  induction l with
  | nil => simp [serase]
  | cons y rest ih =>
    by_cases hv : v = y
    · simpa [serase, hv] using (List.sublist_cons_self y rest)
    · simpa [serase, hv] using List.Sublist.cons₂ y ih

theorem mem_of_mem_serase {l : List T} {v x : T} (h : x ∈ serase l v) :
    x ∈ l :=
  (serase_sublist l v).mem h

theorem nodup_serase (l : List T) (v : T) (h : l.Nodup) : (serase l v).Nodup :=
  List.Nodup.sublist (serase_sublist l v) h

theorem mem_serase (l : List T) (v x : T) (h : l.Nodup) :
    x ∈ serase l v ↔ x ∈ l ∧ x ≠ v := by
  induction l with
  | nil => simp [serase]
  | cons y rest ih =>
    have hrest : rest.Nodup := (List.nodup_cons.mp h).2
    by_cases hv : v = y
    · subst hv
      rw [serase, if_pos rfl]
      constructor
      · intro hx
        refine ⟨List.mem_cons_of_mem _ hx, ?_⟩
        intro hxv
        subst hxv
        exact (List.nodup_cons.mp h).1 hx
      · rintro ⟨hx, hxv⟩
        rcases List.mem_cons.mp hx with rfl | hx'
        · exact absurd rfl hxv
        · exact hx'
    · rw [serase, if_neg hv]
      constructor
      · intro hx
        rcases List.mem_cons.mp hx with rfl | hx'
        · exact ⟨List.mem_cons_self _ _, fun hxy => hv hxy.symm⟩
        · have h2 := (ih hrest).mp hx'
          exact ⟨List.mem_cons_of_mem _ h2.1, h2.2⟩
      · rintro ⟨hx, hxv⟩
        rcases List.mem_cons.mp hx with rfl | hx'
        · exact List.mem_cons_self _ _
        · exact List.mem_cons_of_mem _ ((ih hrest).mpr ⟨hx', hxv⟩)

end SetLemmas

section BucketLemmas

variable {T : Type} [DecidableEq T]

theorem alookup_bucketStore (bs : List (Int × List T)) (id : Int) (v : T)
    (h : NodupKeys bs) (j : Int) :
    alookup (ExpiringSetImpl.bucketStore bs id v) j =
      if j = id then some (sadd ((alookup bs id).getD []) v)
      else alookup bs j := by
  unfold ExpiringSetImpl.bucketStore ExpiringSetImpl.createBucket
  cases hbs : alookup bs id with
  | some b => simp [alookup_aset]
  | none =>
    have hid : id ∉ akeys bs := (alookup_eq_none bs id).mp hbs
    simp only
    rw [aset_append_left bs [(id, [])] id _ hid]
    have hone : aset [(id, ([] : List T))] id (sadd [] v) = [(id, sadd [] v)] := by
      simp [aset]
    rw [hone, alookup_append]
    by_cases hj : j = id
    · subst hj
      simp [hbs, alookup]
    · simp [alookup, hj]

theorem nodupKeys_bucketStore (bs : List (Int × List T)) (id : Int) (v : T)
    (h : NodupKeys bs) : NodupKeys (ExpiringSetImpl.bucketStore bs id v) := by
  unfold ExpiringSetImpl.bucketStore ExpiringSetImpl.createBucket
  cases hbs : alookup bs id with
  | some b => exact nodupKeys_aset _ _ _ h
  | none =>
    have hid : id ∉ akeys bs := (alookup_eq_none bs id).mp hbs
    simp only
    rw [aset_append_left bs [(id, [])] id _ hid]
    have hone : aset [(id, ([] : List T))] id (sadd [] v) = [(id, sadd [] v)] := by
      simp [aset]
    rw [hone]
    unfold NodupKeys akeys
    rw [List.map_append]
    refine List.Nodup.append h (by simp) ?_
    intro x hx hx'
    simp at hx'
    subst hx'
    exact hid hx

theorem alookup_bucketRemove (bs : List (Int × List T)) (cid : Int) (v : T)
    (h : NodupKeys bs) (j : Int) :
    alookup (ExpiringSetImpl.bucketRemove bs cid v) j =
      match alookup bs cid with
      | none => alookup bs j
      | some b =>
        if j = cid then (if serase b v = [] then none else some (serase b v))
        else alookup bs j := by
  unfold ExpiringSetImpl.bucketRemove
  cases hbs : alookup bs cid with
  | none => simp
  | some b =>
    simp only
    by_cases hbe : serase b v = []
    · rw [if_pos hbe, alookup_aerase bs cid j h]
      by_cases hj : j = cid
      · simp [hj, hbe]
      · simp [hj]
    · rw [if_neg hbe, alookup_aset]
      by_cases hj : j = cid
      · simp [hj, hbe]
      · simp [hj]

theorem nodupKeys_bucketRemove (bs : List (Int × List T)) (cid : Int) (v : T)
    (h : NodupKeys bs) : NodupKeys (ExpiringSetImpl.bucketRemove bs cid v) := by
  unfold ExpiringSetImpl.bucketRemove
  cases alookup bs cid with
  | none => exact h
  | some b =>
    simp only
    by_cases hbe : serase b v = []
    · rw [if_pos hbe]
      exact nodupKeys_aerase _ _ h
    · rw [if_neg hbe]
      exact nodupKeys_aset _ _ _ h

end BucketLemmas

section WFLemmas

variable {T : Type} [DecidableEq T]

theorem schedule_entries (s : State T) :
    (ExpiringSetImpl.scheduleGarbageCollection s).entries = s.entries := by
  unfold ExpiringSetImpl.scheduleGarbageCollection
  split_ifs <;> rfl

theorem schedule_buckets (s : State T) :
    (ExpiringSetImpl.scheduleGarbageCollection s).buckets = s.buckets := by
  unfold ExpiringSetImpl.scheduleGarbageCollection
  split_ifs <;> rfl

theorem schedule_listeners (s : State T) :
    (ExpiringSetImpl.scheduleGarbageCollection s).listeners = s.listeners := by
  unfold ExpiringSetImpl.scheduleGarbageCollection
  split_ifs <;> rfl

theorem schedule_gcTimer (s : State T) :
    (ExpiringSetImpl.scheduleGarbageCollection s).gcTimer = !s.entries.isEmpty := by
  unfold ExpiringSetImpl.scheduleGarbageCollection
  split_ifs with h1 h2 h3 <;> simp_all

theorem WF_schedule (s : State T) :
    WF (ExpiringSetImpl.scheduleGarbageCollection s) ↔ WF s := by
  unfold ExpiringSetImpl.scheduleGarbageCollection
  split_ifs <;> exact Iff.rfl

theorem WF_iff (s : State T) :
    WF s ↔ NodupKeys s.entries ∧ NodupKeys s.buckets ∧
      (∀ v id, alookup s.entries v = some id → bucketContains s.buckets id v) ∧
      (∀ id b, alookup s.buckets id = some b →
        b ≠ [] ∧ b.Nodup ∧ ∀ v ∈ b, alookup s.entries v = some id) := by
  constructor
  · rintro ⟨h1, h2, h3, h4⟩
    refine ⟨h1, h2, ?_, ?_⟩
    · intro v id hl
      exact h3 (v, id) (alookup_eq_some_mem hl)
    · intro id b hl
      exact h4 (id, b) (alookup_eq_some_mem hl)
  · rintro ⟨h1, h2, h3, h4⟩
    refine ⟨h1, h2, ?_, ?_⟩
    · intro p hp
      exact h3 p.1 p.2 (mem_alookup h1 hp)
    · intro q hq
      exact h4 q.1 q.2 (mem_alookup h2 hq)

theorem WF_pair_add (g : Bool) (L : List Nat) (E : List (T × Int))
    (B0 : List (Int × List T)) (v : T) (bid : Int)
    (hE : NodupKeys E) (ha : NodupKeys B0)
    (hb : ∀ j b', alookup B0 j = some b' →
      b' ≠ [] ∧ b'.Nodup ∧ ∀ w ∈ b', alookup E w = some j ∧ (w = v → j = bid))
    (hc : ∀ w j, w ≠ v → alookup E w = some j → bucketContains B0 j w) :
    WF { gcTimer := g, entries := aset E v bid,
         buckets := ExpiringSetImpl.bucketStore B0 bid v, listeners := L } := by
  rw [WF_iff]
  refine ⟨nodupKeys_aset E v bid hE, nodupKeys_bucketStore B0 bid v ha, ?_, ?_⟩
  · intro w jd hw
    simp only at hw ⊢
    rw [alookup_aset] at hw
    unfold bucketContains
    rw [alookup_bucketStore B0 bid v ha]
    by_cases hwv : w = v
    · rw [if_pos hwv] at hw
      injection hw with hjd
      rw [if_pos hjd.symm]
      simp only [Option.getD_some]
      rw [mem_sadd]
      exact Or.inr hwv
    · rw [if_neg hwv] at hw
      have hmem := hc w jd hwv hw
      unfold bucketContains at hmem
      by_cases hjd : jd = bid
      · rw [if_pos hjd]
        simp only [Option.getD_some]
        rw [mem_sadd]
        rw [hjd] at hmem
        exact Or.inl hmem
      · rw [if_neg hjd]
        exact hmem
  · intro jd b' hjd
    simp only at hjd ⊢
    rw [alookup_bucketStore B0 bid v ha] at hjd
    by_cases hid : jd = bid
    · rw [if_pos hid] at hjd
      injection hjd with hb2
      subst hb2
      rw [hid]
      refine ⟨sadd_ne_nil _ _, ?_, ?_⟩
      · apply nodup_sadd
        cases hB : alookup B0 bid with
        | none => simp [hB]
        | some c =>
          simp only [hB, Option.getD_some]
          exact (hb bid c hB).2.1
      · intro w hw
        rw [mem_sadd] at hw
        rw [alookup_aset]
        rcases hw with hw | rfl
        · cases hB : alookup B0 bid with
          | none =>
            rw [hB] at hw
            simp at hw
          | some c =>
            rw [hB] at hw
            simp only [Option.getD_some] at hw
            have hEw := ((hb bid c hB).2.2 w hw).1
            by_cases hwv : w = v
            · rw [if_pos hwv]
            · rw [if_neg hwv]
              exact hEw
        · rw [if_pos rfl]
    · rw [if_neg hid] at hjd
      obtain ⟨hne, hnd, hmem⟩ := hb jd b' hjd
      refine ⟨hne, hnd, ?_⟩
      intro w hw
      obtain ⟨hEw, hwv⟩ := hmem w hw
      have hwv' : w ≠ v := fun hh => hid (hwv hh)
      rw [alookup_aset, if_neg hwv']
      exact hEw

theorem WF_pair_del (g : Bool) (L : List Nat) (E : List (T × Int))
    (B0 : List (Int × List T)) (v : T)
    (hE : NodupKeys E) (ha : NodupKeys B0)
    (hb : ∀ j b', alookup B0 j = some b' →
      b' ≠ [] ∧ b'.Nodup ∧ ∀ w ∈ b', w ≠ v ∧ alookup E w = some j)
    (hc : ∀ w j, w ≠ v → alookup E w = some j → bucketContains B0 j w) :
    WF { gcTimer := g, entries := aerase E v, buckets := B0, listeners := L } := by
  rw [WF_iff]
  refine ⟨nodupKeys_aerase E v hE, ha, ?_, ?_⟩
  · intro w jd hw
    simp only at hw ⊢
    rw [alookup_aerase E v w hE] at hw
    by_cases hwv : w = v
    · rw [if_pos hwv] at hw
      exact absurd hw (by simp)
    · rw [if_neg hwv] at hw
      exact hc w jd hwv hw
  · intro jd b' hjd
    simp only at hjd ⊢
    obtain ⟨hne, hnd, hmem⟩ := hb jd b' hjd
    refine ⟨hne, hnd, ?_⟩
    intro w hw
    obtain ⟨hwv, hEw⟩ := hmem w hw
    rw [alookup_aerase E v w hE, if_neg hwv]
    exact hEw

end WFLemmas

section WFPreservation

variable {T : Type} [DecidableEq T]

theorem exists_bucket_of_contains {bs : List (Int × List T)} {id : Int} {v : T}
    (h : bucketContains bs id v) :
    ∃ b, alookup bs id = some b ∧ v ∈ b := by
  unfold bucketContains at h
  cases hB : alookup bs id with
  | none =>
    rw [hB] at h
    simp at h
  | some b =>
    rw [hB] at h
    exact ⟨b, rfl, h⟩

theorem WF_add (o : Options) (now : Int) (v : T) (s : State T) (h : WF s) :
    WF (ExpiringSetImpl.add o now v s) := by
  obtain ⟨h1, h2, h3, h4⟩ := (WF_iff s).mp h
  simp only [ExpiringSetImpl.add]
  rw [WF_schedule]
  cases hv : alookup s.entries v with
  | none =>
    simp only [hv]
    refine WF_pair_add _ _ _ _ _ _ h1 h2 ?_ ?_
    · intro j b' hj
      obtain ⟨hne, hnd, hmem⟩ := h4 j b' hj
      refine ⟨hne, hnd, ?_⟩
      intro w hw
      refine ⟨hmem w hw, ?_⟩
      rintro rfl
      rw [hmem w hw] at hv
      cases hv
    · intro w j _ hw
      exact h3 w j hw
  | some cid =>
    simp only [hv]
    by_cases hcid : cid = bucketSlot now o.gc
    · rw [if_neg (by simp [hcid])]
      refine WF_pair_add _ _ _ _ _ _ h1 h2 ?_ ?_
      · intro j b' hj
        obtain ⟨hne, hnd, hmem⟩ := h4 j b' hj
        refine ⟨hne, hnd, ?_⟩
        intro w hw
        refine ⟨hmem w hw, ?_⟩
        rintro rfl
        rw [hmem w hw] at hv
        injection hv with hv2
        rw [hv2]
        exact hcid
      · intro w j _ hw
        exact h3 w j hw
    · rw [if_pos (by simp [hcid])]
      obtain ⟨b₀, hB, hvb⟩ := exists_bucket_of_contains (h3 v cid hv)
      obtain ⟨hb₀ne, hb₀nd, hb₀mem⟩ := h4 cid b₀ hB
      refine WF_pair_add _ _ _ _ _ _ h1 (nodupKeys_bucketRemove _ _ _ h2) ?_ ?_
      · intro j b' hj
        rw [alookup_bucketRemove _ _ _ h2] at hj
        simp only [hB] at hj
        by_cases hjc : j = cid
        · rw [if_pos hjc] at hj
          by_cases hse : serase b₀ v = []
          · rw [if_pos hse] at hj
            cases hj
          · rw [if_neg hse] at hj
            injection hj with hj2
            subst hj2
            refine ⟨hse, nodup_serase _ _ hb₀nd, ?_⟩
            intro w hw
            have hw' := (mem_serase b₀ v w hb₀nd).mp hw
            refine ⟨hjc ▸ hb₀mem w hw'.1, ?_⟩
            intro hwv
            exact absurd hwv hw'.2
        · rw [if_neg hjc] at hj
          obtain ⟨hne, hnd, hmem⟩ := h4 j b' hj
          refine ⟨hne, hnd, ?_⟩
          intro w hw
          refine ⟨hmem w hw, ?_⟩
          rintro rfl
          rw [hmem w hw] at hv
          injection hv with hv2
          exact absurd hv2 hjc
      · intro w j hwv hw
        have hco := h3 w j hw
        obtain ⟨b, hBj, hwb⟩ := exists_bucket_of_contains hco
        unfold bucketContains
        rw [alookup_bucketRemove _ _ _ h2]
        simp only [hB]
        by_cases hjc : j = cid
        · subst hjc
          rw [if_pos rfl]
          rw [hBj] at hB
          injection hB with hB2
          subst hB2
          have hwse : w ∈ serase b v := (mem_serase b v w hb₀nd).mpr ⟨hwb, hwv⟩
          rw [if_neg (List.ne_nil_of_mem hwse)]
          simpa using hwse
        · rw [if_neg hjc, hBj]
          simpa using hwb

theorem WF_delete (o : Options) (now : Int) (v : T) (s : State T) (h : WF s) :
    WF (ExpiringSetImpl.delete o now v s).1 := by
  obtain ⟨h1, h2, h3, h4⟩ := (WF_iff s).mp h
  simp only [ExpiringSetImpl.delete]
  cases hv : alookup s.entries v with
  | none => exact h
  | some cid =>
    simp only
    rw [WF_schedule]
    obtain ⟨b₀, hB, hvb⟩ := exists_bucket_of_contains (h3 v cid hv)
    obtain ⟨hb₀ne, hb₀nd, hb₀mem⟩ := h4 cid b₀ hB
    refine WF_pair_del _ _ _ _ _ h1 (nodupKeys_bucketRemove _ _ _ h2) ?_ ?_
    · intro j b' hj
      rw [alookup_bucketRemove _ _ _ h2] at hj
      simp only [hB] at hj
      by_cases hjc : j = cid
      · rw [if_pos hjc] at hj
        by_cases hse : serase b₀ v = []
        · rw [if_pos hse] at hj
          cases hj
        · rw [if_neg hse] at hj
          injection hj with hj2
          subst hj2
          refine ⟨hse, nodup_serase _ _ hb₀nd, ?_⟩
          intro w hw
          have hw' := (mem_serase b₀ v w hb₀nd).mp hw
          exact ⟨hw'.2, hjc ▸ hb₀mem w hw'.1⟩
      · rw [if_neg hjc] at hj
        obtain ⟨hne, hnd, hmem⟩ := h4 j b' hj
        refine ⟨hne, hnd, ?_⟩
        intro w hw
        refine ⟨?_, hmem w hw⟩
        rintro rfl
        rw [hmem w hw] at hv
        injection hv with hv2
        exact absurd hv2 hjc
    · intro w j hwv hw
      have hco := h3 w j hw
      obtain ⟨b, hBj, hwb⟩ := exists_bucket_of_contains hco
      unfold bucketContains
      rw [alookup_bucketRemove _ _ _ h2]
      simp only [hB]
      by_cases hjc : j = cid
      · subst hjc
        rw [if_pos rfl]
        rw [hBj] at hB
        injection hB with hB2
        subst hB2
        have hwse : w ∈ serase b v := (mem_serase b v w hb₀nd).mpr ⟨hwb, hwv⟩
        rw [if_neg (List.ne_nil_of_mem hwse)]
        simpa using hwse
      · rw [if_neg hjc, hBj]
        simpa using hwb

theorem WF_clear (s : State T) : WF (ExpiringSetImpl.clear s) := by
  simp only [ExpiringSetImpl.clear]
  rw [WF_schedule, WF_iff]
  refine ⟨?_, ?_, ?_, ?_⟩
  · simp [NodupKeys, akeys]
  · simp [NodupKeys, akeys]
  · intro v id hl
    simp [alookup] at hl
  · intro id b hl
    simp [alookup] at hl

theorem WF_sweep (o : Options) (now : Int) (throws : Nat → List T → Bool)
    (s : State T) (h : WF s) :
    WF (ExpiringSetImpl.performGarbageCollection o now throws s).state := by
  obtain ⟨h1, h2, h3, h4⟩ := (WF_iff s).mp h
  simp only [ExpiringSetImpl.performGarbageCollection]
  rw [WF_schedule, WF_iff]
  refine ⟨nodupKeys_eraseAll _ _ h1, nodupKeys_filter _ _ h2, ?_, ?_⟩
  · intro w jd hw
    simp only at hw ⊢
    rw [alookup_eraseAll _ _ _ h1] at hw
    by_cases hwvals : w ∈ (List.filter (fun p => decide (p.1 ≤ expiryThreshold o now)) s.buckets).flatMap Prod.snd
    · rw [if_pos hwvals] at hw
      cases hw
    · rw [if_neg hwvals] at hw
      obtain ⟨b, hBj, hwb⟩ := exists_bucket_of_contains (h3 w jd hw)
      have hlt : expiryThreshold o now < jd := by
        by_contra hle
        push_neg at hle
        apply hwvals
        rw [List.mem_flatMap]
        refine ⟨(jd, b), ?_, hwb⟩
        rw [List.mem_filter]
        exact ⟨alookup_eq_some_mem hBj, by simpa using hle⟩
      unfold bucketContains
      rw [alookup_filter s.buckets (fun x => decide (expiryThreshold o now < x)) jd h2]
      rw [if_pos (by simpa using hlt), hBj]
      simpa using hwb
  · intro jd b hjd
    simp only at hjd ⊢
    rw [alookup_filter s.buckets (fun x => decide (expiryThreshold o now < x)) jd h2] at hjd
    by_cases hgt : expiryThreshold o now < jd
    · rw [if_pos (by simpa using hgt)] at hjd
      obtain ⟨hne, hnd, hmem⟩ := h4 jd b hjd
      refine ⟨hne, hnd, ?_⟩
      intro w hw
      rw [alookup_eraseAll _ _ _ h1]
      have hwvals : w ∉ (List.filter (fun p => decide (p.1 ≤ expiryThreshold o now)) s.buckets).flatMap Prod.snd := by
        intro hmem2
        rw [List.mem_flatMap] at hmem2
        obtain ⟨p, hp, hwp⟩ := hmem2
        rw [List.mem_filter] at hp
        have hpl : alookup s.buckets p.1 = some p.2 := mem_alookup h2 hp.1
        have := (h4 p.1 p.2 hpl).2.2 w hwp
        rw [hmem w hw] at this
        injection this with this2
        rw [this2] at hgt
        have hple : p.1 ≤ expiryThreshold o now := by simpa using hp.2
        exact absurd hple (not_le.mpr hgt)
      rw [if_neg hwvals]
      exact hmem w hw
    · rw [if_neg (by simpa using hgt)] at hjd
      cases hjd

end WFPreservation

section OpHelpers

variable {T : Type} [DecidableEq T]

theorem fdiv_le_fdiv_of_le {a b c : Int} (hc : 0 < c) (h : a ≤ b) :
    Int.fdiv a c ≤ Int.fdiv b c := by
  rw [Int.fdiv_eq_ediv _ (le_of_lt hc), Int.fdiv_eq_ediv _ (le_of_lt hc)]
  exact Int.ediv_le_ediv hc h

theorem notifyAll_eq_map (throws : Nat → List T → Bool) (ls : List Nat)
    (vs : List T) :
    ExpiringSetImpl.notifyAll throws ls vs
      = ls.map fun l => ⟨l, vs, throws l vs⟩ := by
  induction ls with
  | nil => rfl
  | cons l rest ih => simp [ExpiringSetImpl.notifyAll, ih]

theorem mem_akeys_of_alookup {bs : List (Int × List T)} {id : Int}
    {b : List T} (h : alookup bs id = some b) : id ∈ akeys bs := by
  by_contra hmem
  rw [← alookup_eq_none] at hmem
  rw [h] at hmem
  cases hmem

theorem bucketRemove_keys_sublist (bs : List (Int × List T)) (cid : Int)
    (v : T) :
    List.Sublist (akeys (ExpiringSetImpl.bucketRemove bs cid v)) (akeys bs) := by
  unfold ExpiringSetImpl.bucketRemove
  cases hbs : alookup bs cid with
  | none => exact List.Sublist.refl _
  | some b =>
    simp only
    by_cases hbe : serase b v = []
    · rw [if_pos hbe]
      exact List.Sublist.map Prod.fst (aerase_sublist bs cid)
    · rw [if_neg hbe]
      have hmem : cid ∈ akeys bs := mem_akeys_of_alookup hbs
      have h2 := akeys_aset bs cid (serase b v)
      rw [if_pos hmem] at h2
      rw [h2]

theorem bucketStore_keys (bs : List (Int × List T)) (id : Int) (v : T) :
    akeys (ExpiringSetImpl.bucketStore bs id v)
      = if id ∈ akeys bs then akeys bs else akeys bs ++ [id] := by
  unfold ExpiringSetImpl.bucketStore ExpiringSetImpl.createBucket
  cases hbs : alookup bs id with
  | some b =>
    simp only
    have hmem : id ∈ akeys bs := mem_akeys_of_alookup hbs
    rw [akeys_aset, if_pos hmem]
  | none =>
    simp only
    have hmem : id ∉ akeys bs := (alookup_eq_none bs id).mp hbs
    rw [aset_append_left bs [(id, [])] id _ hmem]
    have hone : aset [(id, ([] : List T))] id (sadd [] v) = [(id, sadd [] v)] := by
      simp [aset]
    rw [hone, if_neg hmem]
    unfold akeys
    rw [List.map_append]
    simp

/-- Buckets are created with the current time slot as identifier, and
the current slot only grows as real time advances; consequently the
bucket map of any run whose operation times are non-decreasing keeps
its keys strictly sorted, all bounded by the current slot.  This
theorem states the preservation step for each operation: from a sorted
bucket map bounded by some earlier slot, add at the current time yields
a sorted map bounded by the current slot, and delete, clear and the
sweep never introduce keys. -/
theorem sorted_buckets_preserved (o : Options) (now : Int) (v : T)
    (throws : Nat → List T → Bool) (s : State T) (m : Int)
    (hs : List.Pairwise (· < ·) (akeys s.buckets))
    (hbound : ∀ id ∈ akeys s.buckets, id ≤ m)
    (hm : m ≤ bucketSlot now o.gc) :
    (List.Pairwise (· < ·) (akeys (ExpiringSetImpl.add o now v s).buckets) ∧
      ∀ id ∈ akeys (ExpiringSetImpl.add o now v s).buckets,
        id ≤ bucketSlot now o.gc) ∧
    (List.Pairwise (· < ·) (akeys (ExpiringSetImpl.delete o now v s).1.buckets) ∧
      ∀ id ∈ akeys (ExpiringSetImpl.delete o now v s).1.buckets, id ≤ m) ∧
    List.Pairwise (· < ·) (akeys (ExpiringSetImpl.clear s).buckets) ∧
    (List.Pairwise (· < ·)
        (akeys (ExpiringSetImpl.performGarbageCollection o now throws s).state.buckets) ∧
      ∀ id ∈ akeys (ExpiringSetImpl.performGarbageCollection o now throws s).state.buckets,
        id ≤ m) := by
  refine ⟨?_, ?_, ?_, ?_⟩
  · simp only [ExpiringSetImpl.add]
    rw [schedule_buckets]
    simp only
    have hB0 : List.Sublist
        (akeys (match alookup s.entries v with
          | some currentId =>
            if currentId ≠ bucketSlot now o.gc
            then ExpiringSetImpl.bucketRemove s.buckets currentId v
            else s.buckets
          | none => s.buckets))
        (akeys s.buckets) := by
      cases alookup s.entries v with
      | none => exact List.Sublist.refl _
      | some cid =>
        simp only
        by_cases hcid : cid = bucketSlot now o.gc
        · rw [if_neg (by simp [hcid])]
        · rw [if_pos (by simp [hcid])]
          exact bucketRemove_keys_sublist s.buckets cid v
    have hs0 := hs.sublist hB0
    have hbound0 : ∀ id ∈ akeys (match alookup s.entries v with
          | some currentId =>
            if currentId ≠ bucketSlot now o.gc
            then ExpiringSetImpl.bucketRemove s.buckets currentId v
            else s.buckets
          | none => s.buckets), id ≤ bucketSlot now o.gc :=
      fun id hid => le_trans (hbound id (hB0.subset hid)) hm
    rw [bucketStore_keys]
    by_cases hmem : bucketSlot now o.gc ∈ akeys (match alookup s.entries v with
          | some currentId =>
            if currentId ≠ bucketSlot now o.gc
            then ExpiringSetImpl.bucketRemove s.buckets currentId v
            else s.buckets
          | none => s.buckets)
    · rw [if_pos hmem]
      exact ⟨hs0, hbound0⟩
    · rw [if_neg hmem]
      constructor
      · rw [List.pairwise_append]
        refine ⟨hs0, List.pairwise_singleton _ _, ?_⟩
        intro a ha b hb
        rw [List.mem_singleton] at hb
        subst hb
        have hle := hbound0 a ha
        have hne : a ≠ bucketSlot now o.gc := by
          intro heq
          rw [heq] at ha
          exact hmem ha
        omega
      · intro id hid
        rw [List.mem_append, List.mem_singleton] at hid
        rcases hid with hid | rfl
        · exact hbound0 id hid
        · exact le_refl _
  · simp only [ExpiringSetImpl.delete]
    cases alookup s.entries v with
    | none => exact ⟨hs, hbound⟩
    | some cid =>
      simp only
      rw [schedule_buckets]
      simp only
      have hsub := bucketRemove_keys_sublist s.buckets cid v
      exact ⟨hs.sublist hsub, fun id hid => hbound id (hsub.subset hid)⟩
  · simp only [ExpiringSetImpl.clear]
    rw [schedule_buckets]
    simp [akeys]
  · simp only [ExpiringSetImpl.performGarbageCollection]
    rw [schedule_buckets]
    simp only
    have hsub : List.Sublist
        (akeys (List.filter (fun p => decide (expiryThreshold o now < p.1)) s.buckets))
        (akeys s.buckets) :=
      List.Sublist.map Prod.fst (List.filter_sublist s.buckets)
    exact ⟨hs.sublist hsub, fun id hid => hbound id (hsub.subset hid)⟩

end OpHelpers

section ClaimTheorems

variable {T : Type} [DecidableEq T]

/-- C1: the claim asserts that construction with a non-positive gc is
rejected (fail fast).  The code performs no validation: this theorem
evaluates the constructor at gc = 0 and shows it completes normally,
storing gc = 0 in the options and building a fully formed instance. -/
theorem c1_construction_accepts_nonpositive_gc :
    resolveOptions ⟨some 0, some 10⟩ = ⟨0, 10⟩ ∧
    (ExpiringSetImpl.new 5 ([3] : List Nat) ⟨some 0, some 10⟩).1.gc = 0 ∧
    (ExpiringSetImpl.new 5 ([3] : List Nat) ⟨some 0, some 10⟩).2.entries = [(3, 0)] ∧
    (ExpiringSetImpl.new 5 ([3] : List Nat) ⟨some 0, some 10⟩).2.gcTimer = true := by
  decide

/-- C2: has(v) is false without an entry and otherwise compares the
recorded bucket identifier against floor((now - ttl) / gc); the answer
is a function of the entry map and the current time alone (the
right-hand side reads nothing else). -/
theorem c2_has_is_logical_expiry (o : Options) (now : Int) (v : T)
    (s : State T) :
    ExpiringSetImpl.has o now v s = logicalMember o now s.entries v := rfl

/-- C7: immediately after add(v) at the same current time, has(v) is
true, for every configuration with positive ttl and gc. -/
theorem c7_has_after_add (o : Options) (now : Int) (v : T) (s : State T)
    (hgc : 0 < o.gc) (httl : 0 < o.ttl) :
    ExpiringSetImpl.has o now v (ExpiringSetImpl.add o now v s) = true := by
  simp only [ExpiringSetImpl.has, ExpiringSetImpl.add]
  rw [schedule_entries, alookup_aset, if_pos rfl]
  show decide (bucketSlot now o.gc ≥ expiryThreshold o now) = true
  rw [decide_eq_true_iff]
  show expiryThreshold o now ≤ bucketSlot now o.gc
  unfold expiryThreshold bucketSlot
  exact fdiv_le_fdiv_of_le hgc (by omega)

/-- C7 witness: a concrete engine (gc = 10, ttl = 10), value added at
time 0 is immediately a member. -/
theorem c7_has_after_add_witness :
    (0 : Int) < (10 : Int) ∧
    ExpiringSetImpl.has ⟨10, 10⟩ 0 (0 : Nat)
      (ExpiringSetImpl.add ⟨10, 10⟩ 0 0 (initState Nat)) = true :=
  ⟨by decide, c7_has_after_add ⟨10, 10⟩ 0 0 (initState Nat) (by decide) (by decide)⟩

/-- C5: after add, delete, clear and a completed sweep, a timer is
pending exactly when the entry map is non-empty (for delete on an
absent value this is inherited from the state before); and the
scheduler never arms a second timer: when one is already pending it
either leaves the state unchanged or cancels the pending one. -/
theorem c5_timer_iff_nonempty (o : Options) (now : Int) (v : T)
    (throws : Nat → List T → Bool) (s : State T)
    (h : s.gcTimer = !s.entries.isEmpty) :
    ((ExpiringSetImpl.add o now v s).gcTimer
        = !(ExpiringSetImpl.add o now v s).entries.isEmpty) ∧
    ((ExpiringSetImpl.delete o now v s).1.gcTimer
        = !(ExpiringSetImpl.delete o now v s).1.entries.isEmpty) ∧
    ((ExpiringSetImpl.clear s).gcTimer
        = !(ExpiringSetImpl.clear s).entries.isEmpty) ∧
    ((ExpiringSetImpl.performGarbageCollection o now throws s).state.gcTimer
        = !(ExpiringSetImpl.performGarbageCollection o now throws s).state.entries.isEmpty) ∧
    (s.gcTimer = true →
      ExpiringSetImpl.scheduleGarbageCollection s = s ∨
      (ExpiringSetImpl.scheduleGarbageCollection s).gcTimer = false) := by
  refine ⟨?_, ?_, ?_, ?_, ?_⟩
  · simp only [ExpiringSetImpl.add]
    rw [schedule_gcTimer, schedule_entries]
  · simp only [ExpiringSetImpl.delete]
    cases hv : alookup s.entries v with
    | none => exact h
    | some cid =>
      simp only
      rw [schedule_gcTimer, schedule_entries]
  · simp only [ExpiringSetImpl.clear]
    rw [schedule_gcTimer, schedule_entries]
  · simp only [ExpiringSetImpl.performGarbageCollection]
    rw [schedule_gcTimer, schedule_entries]
  · intro ht
    unfold ExpiringSetImpl.scheduleGarbageCollection
    by_cases he : s.entries.isEmpty
    · right
      simp [he, ht]
    · left
      simp [he, ht]

/-- C5 witness: concrete engine with one entry and a pending timer. -/
theorem c5_timer_iff_nonempty_witness :
    cexState.gcTimer = !cexState.entries.isEmpty ∧
    ((ExpiringSetImpl.add ⟨10, 10⟩ 10 1 cexState).gcTimer
        = !(ExpiringSetImpl.add ⟨10, 10⟩ 10 1 cexState).entries.isEmpty) :=
  ⟨by decide,
    (c5_timer_iff_nonempty ⟨10, 10⟩ 10 1 (neverThrows Nat) cexState (by decide)).1⟩

/-- C4 counterexample: with gc = 10 and ttl = 10, value 0 added at time
10 sits in bucket 1; a sweep firing at time 20 computes threshold
floor((20 - 10) / 10) = 1 and reclaims bucket 1, while has at the same
time 20 still answers true (1 >= 1).  The sweep therefore physically
reclaims a logically present element, refuting the claim. -/
theorem c4_boundary_bucket_reclaimed_while_present :
    0 ∈ (ExpiringSetImpl.performGarbageCollection ⟨10, 10⟩ 20
          (neverThrows Nat) cexState).values ∧
    ExpiringSetImpl.has ⟨10, 10⟩ 20 0 cexState = true := by
  decide

/-- C4 amended: a value reclaimed by a sweep at time t is logically
present at t exactly when its recorded bucket identifier equals the
expiry threshold floor((t - ttl) / gc); every reclaimed value from a
strictly older bucket is logically absent. -/
theorem c4_reclaimed_iff_boundary (o : Options) (now : Int)
    (throws : Nat → List T → Bool) (s : State T) (h : WF s) (v : T)
    (hv : v ∈ (ExpiringSetImpl.performGarbageCollection o now throws s).values) :
    ExpiringSetImpl.has o now v s = true ↔
      alookup s.entries v = some (expiryThreshold o now) := by
  obtain ⟨h1, h2, h3, h4⟩ := (WF_iff s).mp h
  simp only [ExpiringSetImpl.performGarbageCollection] at hv
  rw [List.mem_flatMap] at hv
  obtain ⟨p, hp, hvp⟩ := hv
  rw [List.mem_filter] at hp
  have hpl : alookup s.buckets p.1 = some p.2 := mem_alookup h2 hp.1
  have hEv : alookup s.entries v = some p.1 := (h4 p.1 p.2 hpl).2.2 v hvp
  have hple : p.1 ≤ expiryThreshold o now := by simpa using hp.2
  unfold ExpiringSetImpl.has
  rw [hEv]
  simp only [Option.some.injEq]
  constructor
  · intro hd
    rw [decide_eq_true_iff] at hd
    omega
  · intro hd
    rw [decide_eq_true_iff]
    omega

/-- C4 amended witness: in the concrete boundary scenario the reclaimed
value 0 has bucket identifier 1, equal to the threshold, and has is
true. -/
theorem c4_reclaimed_iff_boundary_witness :
    ExpiringSetImpl.has ⟨10, 10⟩ 20 0 cexState = true ↔
      alookup cexState.entries 0 = some (expiryThreshold ⟨10, 10⟩ 20) :=
  c4_reclaimed_iff_boundary ⟨10, 10⟩ 20 (neverThrows Nat) cexState
    (by decide) 0 (by decide)

/-- C3: a sweep at time t reclaims exactly the buckets at or below the
threshold floor((t - ttl) / gc): those buckets disappear from the
bucket map, strictly newer buckets survive unchanged, every collected
value loses its entry record, entries recorded in strictly newer
buckets survive unchanged, and the batch consists precisely of the
values of the at-or-below-threshold buckets. -/
theorem c3_sweep_reclaims_exactly_threshold (o : Options) (now : Int)
    (throws : Nat → List T → Bool) (s : State T) (h : WF s) :
    (∀ id, id ≤ expiryThreshold o now →
      alookup (ExpiringSetImpl.performGarbageCollection o now throws s).state.buckets id
        = none) ∧
    (∀ id, expiryThreshold o now < id →
      alookup (ExpiringSetImpl.performGarbageCollection o now throws s).state.buckets id
        = alookup s.buckets id) ∧
    (∀ v, v ∈ (ExpiringSetImpl.performGarbageCollection o now throws s).values →
      alookup (ExpiringSetImpl.performGarbageCollection o now throws s).state.entries v
        = none) ∧
    (∀ v id, alookup s.entries v = some id → expiryThreshold o now < id →
      alookup (ExpiringSetImpl.performGarbageCollection o now throws s).state.entries v
        = some id) ∧
    (∀ v, v ∈ (ExpiringSetImpl.performGarbageCollection o now throws s).values ↔
      ∃ id b, alookup s.buckets id = some b ∧ id ≤ expiryThreshold o now ∧ v ∈ b) := by
  obtain ⟨h1, h2, h3, h4⟩ := (WF_iff s).mp h
  simp only [ExpiringSetImpl.performGarbageCollection]
  rw [schedule_buckets, schedule_entries]
  simp only
  refine ⟨?_, ?_, ?_, ?_, ?_⟩
  · intro id hle
    rw [alookup_filter s.buckets (fun x => decide (expiryThreshold o now < x)) id h2]
    rw [if_neg (by simpa using not_lt.mpr hle)]
  · intro id hgt
    rw [alookup_filter s.buckets (fun x => decide (expiryThreshold o now < x)) id h2]
    rw [if_pos (by simpa using hgt)]
  · intro v hv
    rw [alookup_eraseAll _ _ _ h1, if_pos hv]
  · intro v id hEv hgt
    rw [alookup_eraseAll _ _ _ h1]
    have hnv : v ∉ (List.filter (fun p => decide (p.1 ≤ expiryThreshold o now)) s.buckets).flatMap Prod.snd := by
      intro hmem
      rw [List.mem_flatMap] at hmem
      obtain ⟨p, hp, hvp⟩ := hmem
      rw [List.mem_filter] at hp
      have hpl : alookup s.buckets p.1 = some p.2 := mem_alookup h2 hp.1
      have hEv' : alookup s.entries v = some p.1 := (h4 p.1 p.2 hpl).2.2 v hvp
      rw [hEv] at hEv'
      injection hEv' with h5
      have hple : p.1 ≤ expiryThreshold o now := by simpa using hp.2
      omega
    rw [if_neg hnv]
    exact hEv
  · intro v
    rw [List.mem_flatMap]
    constructor
    · rintro ⟨p, hp, hvp⟩
      rw [List.mem_filter] at hp
      exact ⟨p.1, p.2, mem_alookup h2 hp.1, by simpa using hp.2, hvp⟩
    · rintro ⟨id, b, hB, hle, hvb⟩
      refine ⟨(id, b), ?_, hvb⟩
      rw [List.mem_filter]
      exact ⟨alookup_eq_some_mem hB, by simpa using hle⟩

/-- C3 witness: in the concrete boundary scenario, bucket 1 is removed,
the reclaimed value 0 loses its entry, and the batch is characterised
exactly. -/
theorem c3_sweep_reclaims_exactly_threshold_witness :
    alookup (ExpiringSetImpl.performGarbageCollection ⟨10, 10⟩ 20
      (neverThrows Nat) cexState).state.buckets 1 = none ∧
    alookup (ExpiringSetImpl.performGarbageCollection ⟨10, 10⟩ 20
      (neverThrows Nat) cexState).state.entries 0 = none :=
  ⟨(c3_sweep_reclaims_exactly_threshold ⟨10, 10⟩ 20 (neverThrows Nat) cexState
      (by decide)).1 1 (by decide),
    (c3_sweep_reclaims_exactly_threshold ⟨10, 10⟩ 20 (neverThrows Nat) cexState
      (by decide)).2.2.1 0 (by decide)⟩

/-- C6: add, delete, clear and the sweep each preserve the
map-consistency invariant: unique keys in both maps, every entry
pointing at the bucket that contains it, every bucket a non-empty
duplicate-free set whose members all carry its identifier, so a bucket
key is present exactly when its set is non-empty. -/
theorem c6_operations_preserve_WF (o : Options) (now : Int) (v : T)
    (throws : Nat → List T → Bool) (s : State T) (h : WF s) :
    WF (ExpiringSetImpl.add o now v s) ∧
    WF (ExpiringSetImpl.delete o now v s).1 ∧
    WF (ExpiringSetImpl.clear s) ∧
    WF (ExpiringSetImpl.performGarbageCollection o now throws s).state :=
  ⟨WF_add o now v s h, WF_delete o now v s h, WF_clear s,
    WF_sweep o now throws s h⟩

/-- C6 witness: the invariant holds of the concrete two-bucket state and
is carried through a concrete add. -/
theorem c6_operations_preserve_WF_witness :
    WF (ExpiringSetImpl.add ⟨10, 10⟩ 30 5 twoBucketState) :=
  (c6_operations_preserve_WF ⟨10, 10⟩ 30 5 (neverThrows Nat) twoBucketState
    (by decide)).1

/-- C8: when the sweep reclaims at least one value it invokes the
registered listeners, each exactly once with the complete batch; with
the bucket map sorted by identifier (as in every monotone-time run) the
batch lists the reclaimed buckets in increasing identifier order; no
call ever carries an empty batch. -/
theorem c8_listener_batch (o : Options) (now : Int)
    (throws : Nat → List T → Bool) (s : State T)
    (hsorted : List.Pairwise (· < ·) (akeys s.buckets)) :
    ((ExpiringSetImpl.performGarbageCollection o now throws s).values ≠ [] →
      (ExpiringSetImpl.performGarbageCollection o now throws s).calls
        = s.listeners.map fun l =>
            ⟨l, (ExpiringSetImpl.performGarbageCollection o now throws s).values,
              throws l (ExpiringSetImpl.performGarbageCollection o now throws s).values⟩) ∧
    ((ExpiringSetImpl.performGarbageCollection o now throws s).values = [] →
      (ExpiringSetImpl.performGarbageCollection o now throws s).calls = []) ∧
    (∀ c ∈ (ExpiringSetImpl.performGarbageCollection o now throws s).calls,
      c.batch = (ExpiringSetImpl.performGarbageCollection o now throws s).values ∧
      c.batch ≠ []) ∧
    List.Pairwise (fun p q => p.1 < q.1)
      (s.buckets.filter fun p => decide (p.1 ≤ expiryThreshold o now)) ∧
    (ExpiringSetImpl.performGarbageCollection o now throws s).values
      = (s.buckets.filter fun p => decide (p.1 ≤ expiryThreshold o now)).flatMap
          Prod.snd := by
  have hpair : List.Pairwise (fun p q => p.1 < q.1)
      (s.buckets.filter fun p => decide (p.1 ≤ expiryThreshold o now)) := by
    have hbp : List.Pairwise (fun p q : Int × List T => p.1 < q.1) s.buckets := by
      have h2 := hsorted
      unfold akeys at h2
      rwa [List.pairwise_map] at h2
    exact hbp.sublist (List.filter_sublist s.buckets)
  have hval : (ExpiringSetImpl.performGarbageCollection o now throws s).values
      = (s.buckets.filter fun p => decide (p.1 ≤ expiryThreshold o now)).flatMap
          Prod.snd := rfl
  have hcalls : (ExpiringSetImpl.performGarbageCollection o now throws s).calls
      = if ((s.buckets.filter fun p => decide (p.1 ≤ expiryThreshold o now)).flatMap
            Prod.snd).isEmpty
        then []
        else ExpiringSetImpl.notifyAll throws s.listeners
          ((s.buckets.filter fun p => decide (p.1 ≤ expiryThreshold o now)).flatMap
            Prod.snd) := rfl
  refine ⟨?_, ?_, ?_, hpair, hval⟩
  · intro hne
    rw [hval] at hne
    rw [hval, hcalls, if_neg (by rw [List.isEmpty_iff]; exact hne),
      notifyAll_eq_map]
  · intro hnil
    rw [hval] at hnil
    rw [hcalls, if_pos (List.isEmpty_iff.mpr hnil)]
  · intro c hc
    rw [hcalls] at hc
    by_cases hnil : (List.filter (fun p => decide (p.1 ≤ expiryThreshold o now)) s.buckets).flatMap Prod.snd = []
    · rw [if_pos (List.isEmpty_iff.mpr hnil)] at hc
      cases hc
    · rw [if_neg (by rw [List.isEmpty_iff]; exact hnil), notifyAll_eq_map] at hc
      rw [List.mem_map] at hc
      obtain ⟨l, _, hcl⟩ := hc
      rw [← hcl]
      exact ⟨hval.symm, hnil⟩

/-- C8 witness: the concrete two-bucket engine swept at time 32 has a
sorted bucket map and produces exactly one call to listener 7 with the
full batch. -/
theorem c8_listener_batch_witness :
    (ExpiringSetImpl.performGarbageCollection ⟨10, 10⟩ 32 (neverThrows Nat)
        twoBucketState).calls
      = twoBucketState.listeners.map fun l =>
          ⟨l, (ExpiringSetImpl.performGarbageCollection ⟨10, 10⟩ 32
                (neverThrows Nat) twoBucketState).values,
            neverThrows Nat l
              (ExpiringSetImpl.performGarbageCollection ⟨10, 10⟩ 32
                (neverThrows Nat) twoBucketState).values⟩ :=
  (c8_listener_batch ⟨10, 10⟩ 32 (neverThrows Nat) twoBucketState
    (by decide)).1 (by decide)

/-- C9: listeners are invoked in registration order no matter which of
them throw (the batch list of invoked listeners equals the registration
list whenever the batch is non-empty, and every call carries the same
full batch), and the state established by the sweep is identical for
any two throwing behaviours, so a throwing listener neither suppresses
later listeners nor perturbs the entry map, bucket map or timer. -/
theorem c9_listener_failures_isolated (o : Options) (now : Int)
    (throws throws' : Nat → List T → Bool) (s : State T) :
    ((ExpiringSetImpl.performGarbageCollection o now throws s).calls.map
        Call.listener
      = if (ExpiringSetImpl.performGarbageCollection o now throws s).values = []
        then [] else s.listeners) ∧
    ((ExpiringSetImpl.performGarbageCollection o now throws s).state
      = (ExpiringSetImpl.performGarbageCollection o now throws' s).state) ∧
    ((ExpiringSetImpl.performGarbageCollection o now throws s).values
      = (ExpiringSetImpl.performGarbageCollection o now throws' s).values) ∧
    (∀ c ∈ (ExpiringSetImpl.performGarbageCollection o now throws s).calls,
      c.batch = (ExpiringSetImpl.performGarbageCollection o now throws s).values) := by
  have hval : (ExpiringSetImpl.performGarbageCollection o now throws s).values
      = (s.buckets.filter fun p => decide (p.1 ≤ expiryThreshold o now)).flatMap
          Prod.snd := rfl
  have hcalls : (ExpiringSetImpl.performGarbageCollection o now throws s).calls
      = if ((s.buckets.filter fun p => decide (p.1 ≤ expiryThreshold o now)).flatMap
            Prod.snd).isEmpty
        then []
        else ExpiringSetImpl.notifyAll throws s.listeners
          ((s.buckets.filter fun p => decide (p.1 ≤ expiryThreshold o now)).flatMap
            Prod.snd) := rfl
  refine ⟨?_, rfl, rfl, ?_⟩
  · rw [hval, hcalls]
    by_cases hnil : (List.filter (fun p => decide (p.1 ≤ expiryThreshold o now)) s.buckets).flatMap Prod.snd = []
    · rw [if_pos (List.isEmpty_iff.mpr hnil), if_pos hnil]
      rfl
    · rw [if_neg (by rw [List.isEmpty_iff]; exact hnil), if_neg hnil,
        notifyAll_eq_map, List.map_map]
      exact List.map_id s.listeners
  · intro c hc
    rw [hcalls] at hc
    by_cases hnil : (List.filter (fun p => decide (p.1 ≤ expiryThreshold o now)) s.buckets).flatMap Prod.snd = []
    · rw [if_pos (List.isEmpty_iff.mpr hnil)] at hc
      cases hc
    · rw [if_neg (by rw [List.isEmpty_iff]; exact hnil), notifyAll_eq_map] at hc
      rw [List.mem_map] at hc
      obtain ⟨l, _, hcl⟩ := hc
      rw [← hcl, hval]

/-- C9 witness: sweeping the concrete two-bucket engine with a listener
that always throws leaves exactly the state produced when no listener
throws. -/
theorem c9_listener_failures_isolated_witness :
    (ExpiringSetImpl.performGarbageCollection ⟨10, 10⟩ 32 (alwaysThrows Nat)
        twoBucketState).state
      = (ExpiringSetImpl.performGarbageCollection ⟨10, 10⟩ 32 (neverThrows Nat)
          twoBucketState).state :=
  (c9_listener_failures_isolated ⟨10, 10⟩ 32 (alwaysThrows Nat)
    (neverThrows Nat) twoBucketState).2.1

theorem timed_add_eq (o : Options) (now : Int) (v : T) (s : State T) :
    TimedSet.add o now v s = ExpiringSetImpl.add o now v s := rfl

theorem timed_clear_eq (s : State T) :
    TimedSet.clear s = ExpiringSetImpl.clear s := rfl

theorem timed_delete_eq (o : Options) (now : Int) (v : T) (s : State T) :
    TimedSet.delete o now v s = (ExpiringSetImpl.delete o now v s).1 := by
  unfold TimedSet.delete ExpiringSetImpl.delete
  cases alookup s.entries v <;> rfl

theorem timed_has_eq (o : Options) (now : Int) (v : T) (s : State T) :
    TimedSet.has o now v s = ExpiringSetImpl.has o now v s := rfl

theorem timed_size_eq (s : State T) :
    TimedSet.size s = ExpiringSetImpl.size s := rfl

theorem timed_listen_eq (l : Nat) (s : State T) :
    TimedSet.listen l s = ExpiringSetImpl.listen l s := rfl

theorem timed_notifyAll_eq (throws : Nat → List T → Bool) (ls : List Nat)
    (vs : List T) :
    TimedSet.notifyAll throws ls vs = ExpiringSetImpl.notifyAll throws ls vs := by
  induction ls with
  | nil => rfl
  | cons l rest ih => rw [TimedSet.notifyAll, ExpiringSetImpl.notifyAll, ih]

theorem timed_gc_eq (s : State T) :
    TimedSet.gc s = ExpiringSetImpl.scheduleGarbageCollection s := rfl

theorem timed_sweep_eq (o : Options) (now : Int)
    (throws : Nat → List T → Bool) (s : State T) :
    TimedSet.timedSweep o now throws s
      = ExpiringSetImpl.performGarbageCollection o now throws s := by
  simp only [TimedSet.timedSweep, ExpiringSetImpl.performGarbageCollection]
  rw [timed_notifyAll_eq, timed_gc_eq]
  rfl

theorem stepTimed_eq_stepExp (o : Options) (throws : Nat → List T → Bool)
    (s : State T) (e : Event T) :
    stepTimed o throws s e = stepExp o throws s e := by
  cases e with
  | addE now v => exact timed_add_eq o now v s
  | delE now v => exact timed_delete_eq o now v s
  | clearE => exact timed_clear_eq s
  | listenE l => exact timed_listen_eq l s
  | sweepE now => rw [stepTimed, stepExp, timed_sweep_eq]

/-- C10: the two revisions are behaviourally equivalent on their shared
surface.  Any event sequence (adds, deletes, clears, listener
registrations and sweeps, each at its own time) run from the same state
under the same configuration leaves both revisions in identical states;
has, size, delete (up to its omitted boolean result) and the whole
sweep outcome (state, batch and listener calls) agree pointwise, and
the two constructors resolve options identically and produce the same
initial state when no seed values are supplied. -/
theorem c10_revisions_equivalent (o : Options) (throws : Nat → List T → Bool)
    (now : Int) (v : T) (ro : RawOptions) (evs : List (Event T))
    (s : State T) :
    runTimed o throws evs s = runExp o throws evs s ∧
    TimedSet.has o now v s = ExpiringSetImpl.has o now v s ∧
    TimedSet.size s = ExpiringSetImpl.size s ∧
    TimedSet.delete o now v s = (ExpiringSetImpl.delete o now v s).1 ∧
    TimedSet.timedSweep o now throws s
      = ExpiringSetImpl.performGarbageCollection o now throws s ∧
    (TimedSet.new T ro).1 = (ExpiringSetImpl.new now ([] : List T) ro).1 ∧
    (TimedSet.new T ro).2 = (ExpiringSetImpl.new now ([] : List T) ro).2 := by
  refine ⟨?_, timed_has_eq o now v s, timed_size_eq s, timed_delete_eq o now v s,
    timed_sweep_eq o now throws s, rfl, rfl⟩
  induction evs generalizing s with
  | nil => rfl
  | cons e rest ih =>
    rw [runTimed, runExp, List.foldl_cons, List.foldl_cons,
      stepTimed_eq_stepExp]
    exact ih (stepExp o throws s e)

end ClaimTheorems

end Expiring
